import Mathlib

/-!
Verification development for the email-to-Markdown conversion core of the
ticket-dispatcher repository (`extract_body.go`, `html_convert.go`):

* the MIME body selector (`extractBodyAsMarkdown`, `readAndDecodePart`),
* the HTML-to-Markdown renderer (`htmlToPlain` and its helpers),
* the quote folder (`hideQuotedPart`).

Go strings are modelled as `List Char` (`Str`); Go string-library functions
used by the code are embedded as explicit functions on `Str`.  External
libraries (the HTML parser, entity unescaping, charset conversion,
transfer-encoding decoders, MIME header parsing) are treated as parameters or
as pre-computed fields: the functions below start from their outputs, exactly
where the repository code consumes them.
-/

abbrev Str := List Char

/-- Whitespace test used by `strings.TrimSpace` (`unicode.IsSpace`), restricted
to the Latin-1 characters; every character appearing in the embedded
constants and proofs is covered. -/
def isSpaceChar (c : Char) : Bool :=
  c == ' ' || c == '\t' || c == '\n' || c == '\x0b' || c == '\x0c' || c == '\r' ||
    c == '\u0085' || c == ' '

/-- `strings.TrimSpace`: drop whitespace from both ends. -/
def trimSpace (l : Str) : Str :=
  ((l.dropWhile isSpaceChar).reverse.dropWhile isSpaceChar).reverse

/-- `strings.ToLower` (ASCII letters; no non-ASCII letter reaches a
case-sensitive comparison in the embedded code). -/
def toLowerStr (l : Str) : Str := l.map Char.toLower

/-- `strings.HasPrefix s p`. -/
def startsWithStr (s p : Str) : Bool := p.isPrefixOf s

/-- `strings.HasSuffix s p`. -/
def endsWithStr (s p : Str) : Bool := p.isSuffixOf s

/-- `strings.Contains hay needle` (substring search). -/
def isInfixStr (needle : Str) : Str → Bool
  | [] => needle.isEmpty
  | c :: rest => needle.isPrefixOf (c :: rest) || isInfixStr needle rest

/-- `strings.Split md "\n"`. -/
def splitNl : Str → List Str
  | [] => [[]]
  | c :: rest =>
    if c = '\n' then [] :: splitNl rest
    else
      match splitNl rest with
      | [] => [[c]]
      | l :: ls => (c :: l) :: ls

/-- `strings.Join lines "\n"`. -/
def joinNl : List Str → Str
  | [] => []
  | [l] => l
  | l :: ls => l ++ '\n' :: joinNl ls

/-- `strings.TrimLeft s "\n"`. -/
def trimNlLeft (l : Str) : Str := l.dropWhile (· == '\n')

/-- `strings.TrimRight s "\n"`. -/
def trimNlRight (l : Str) : Str := (l.reverse.dropWhile (· == '\n')).reverse

/-- Decimal rendering of a counter, as `fmt.Sprintf "%d"`. -/
def natToStr (n : Nat) : Str := Nat.toDigits 10 n

/-- `strings.Repeat s n` for a non-negative count. -/
def repeatStr (s : Str) (n : Nat) : Str := (List.replicate n s).flatten

/-!
## Quote folder (`hideQuotedPart`, extract_body.go lines 150-237)

The eight regular expressions of `pats` are embedded as decidable predicates
on a single already-trimmed line (the code applies them to
`strings.TrimSpace(ln)`, which contains no newline).  Each predicate is the
exact match condition of the corresponding anchored pattern on such a line.
-/

/-- Character class `\s` of the Go regexp package: `[\t\n\f\r ]`. -/
def isRegexSpace (c : Char) : Bool :=
  c == ' ' || c == '\t' || c == '\n' || c == '\x0c' || c == '\r'

/-- Pattern 1, `(?i)^On .+ wrote:`: the line starts with `on ` (case folded)
and ` wrote:` occurs at some position at least 4, leaving a non-empty `.+`
in between. -/
def pOnWrote (t : Str) : Bool :=
  let low := toLowerStr t
  startsWithStr low "on ".data && isInfixStr " wrote:".data (low.drop 4)

/-- Pattern 2, `(?i)^\**From:\s*.+@.+`: after stripping the leading `*` run,
the line starts with `from:` and the remainder contains an `@` that is
neither its first nor its last character (so `.+` matches on both sides;
`\s*` may match the empty string). -/
def pFrom (t : Str) : Bool :=
  let t1 := t.dropWhile (· == '*')
  if startsWithStr (toLowerStr t1) "from:".data then
    let rest := t1.drop 5
    (rest.drop 1).dropLast.contains '@'
  else false

/-- Pattern 3, `(?i)^Sent:\s*`. -/
def pSent (t : Str) : Bool := startsWithStr (toLowerStr t) "sent:".data

/-- Pattern 4, `(?i)^\**To:\s*`. -/
def pTo (t : Str) : Bool :=
  startsWithStr (toLowerStr (t.dropWhile (· == '*'))) "to:".data

/-- Pattern 5, `(?i)^\**Subject:\s*`. -/
def pSubject (t : Str) : Bool :=
  startsWithStr (toLowerStr (t.dropWhile (· == '*'))) "subject:".data

/-- Pattern 6, `(?i)^-+ ?Original Message ?-+`: a non-empty dash run, an
optional single space, the literal (case folded), an optional single space,
then at least one dash.  The backtracking of ` ?` is immaterial here because
the following literal never starts with a space or dash. -/
def pOrig (t : Str) : Bool :=
  if t.takeWhile (· == '-') = [] then false
  else
    let r0 := t.dropWhile (· == '-')
    let r1 := match r0 with
      | ' ' :: tl => tl
      | _ => r0
    if startsWithStr (toLowerStr r1) "original message".data then
      match r1.drop 16 with
      | ' ' :: '-' :: _ => true
      | '-' :: _ => true
      | _ => false
    else false

/-- Pattern 7, `(?i)^Begin forwarded message:`. -/
def pFwd (t : Str) : Bool :=
  startsWithStr (toLowerStr t) "begin forwarded message:".data

/-- Pattern 8, `(?m)^--\s*$` applied to one trimmed line: two dashes followed
only by regexp whitespace. -/
def pSig : Str → Bool
  | '-' :: '-' :: rest => rest.all isRegexSpace
  | _ => false

/-- Disjunction of the eight patterns of `pats`, applied to a trimmed line. -/
def patMatch (t : Str) : Bool :=
  pOnWrote t || pFrom t || pSent t || pTo t || pSubject t || pOrig t || pFwd t || pSig t

/-- Line test `strings.HasPrefix (strings.TrimSpace ln) ">"`. -/
def startsGt (l : Str) : Bool := startsWithStr (trimSpace l) ">".data

/-- Scanning loop of `isQuoteBlock` (lines 170-187): from the current suffix,
count `>`-prefixed lines, skipping blank lines, stopping at any other line or
once the count reaches 3. -/
def quoteScan : Nat → List Str → Bool
  | count, [] => decide (3 ≤ count)
  | count, l :: rest =>
    if 3 ≤ count then true
    else if startsGt l then quoteScan (count + 1) rest
    else if trimSpace l = [] then quoteScan count rest
    else false

/-- Split-finding loop (lines 189-209): index of the first non-blank line
that starts a quote block or matches a pattern. -/
def findSplit : List Str → Option Nat
  | [] => none
  | l :: rest =>
    let t := trimSpace l
    if t = [] then (findSplit rest).map (· + 1)
    else if quoteScan 0 (l :: rest) then some 0
    else if patMatch t then some 0
    else (findSplit rest).map (· + 1)

/-- The `<details>` disclosure block built around the quoted region
(lines 219-220). -/
def detailsWrap (quoted : Str) : Str :=
  "<details>\n<summary>Show quoted email</summary>\n\n".data ++
    trimNlRight quoted ++ "\n\n</details>".data

/-- `hideQuotedPart` (extract_body.go lines 150-237). -/
def hideQuotedPart (md : Str) (removeQuotes : Bool) : Str :=
  if trimSpace md = [] then md
  else
    let lines := splitNl md
    match findSplit lines with
    | none => md
    | some s =>
      let visible := trimNlRight (joinNl (lines.take s))
      let quoted := trimNlLeft (joinNl (lines.drop s))
      let details := detailsWrap quoted
      if trimSpace visible = [] then details
      else if removeQuotes then visible ++ ['\n']
      else visible ++ "\n\n".data ++ details

/-!
## MIME body selector (`extractBodyAsMarkdown`, extract_body.go lines 38-84)

A multipart part is modelled by the values the scan loop reads from it: the
`Content-Disposition` header, the media type produced by
`mime.ParseMediaType` on its `Content-Type`, and the outcome of
`readAndDecodePart` on its body (the decoding pipeline itself is embedded
separately below; here only its observable result matters).  The renderer
(`htmlToPlain` composed with the external HTML parser) is a parameter. -/

structure MPart where
  disposition : Str
  mediaType : Str
  decoded : Except Unit Str

/-- Attachment skip (line 55): disposition lower-cased starts with
`attachment`. -/
def isAttachment (p : MPart) : Bool :=
  startsWithStr (toLowerStr p.disposition) "attachment".data

/-- Whether the decoding outcome of a part is a success. -/
def okDecode (q : MPart) : Bool :=
  match q.decoded with
  | .ok _ => true
  | .error _ => false

inductive BodyError where
  | noTextPart
  | decodeFailed
  | renderFailed

/-- The part scan loop (lines 46-83) with the `firstHTML` accumulator.
On `text/plain`: return the decoded, trimmed text.  On `text/html`: store the
decoded text in the accumulator (note: the assignment is unconditional) and
continue.  On any other media type of a non-attachment part: fail.  After the
last part, render the accumulator if non-empty, else return the empty
string. -/
def scanParts (render : Str → Except Unit Str) :
    List MPart → Str → Except BodyError Str
  | [], firstHTML =>
    if firstHTML ≠ [] then
      match render firstHTML with
      | .error _ => .error .renderFailed
      | .ok md => .ok md
    else .ok []
  | p :: rest, firstHTML =>
    if isAttachment p then scanParts render rest firstHTML
    else if p.mediaType = "text/plain".data then
      match p.decoded with
      | .error _ => .error .decodeFailed
      | .ok b => .ok (trimSpace b)
    else if p.mediaType = "text/html".data then
      match p.decoded with
      | .error _ => .error .decodeFailed
      | .ok b => scanParts render rest b
    else .error .noTextPart

/-- Multipart branch of `extractBodyAsMarkdown`: scan the declared parts in
order with an empty accumulator. -/
def extractBodyAsMarkdown (render : Str → Except Unit Str)
    (parts : List MPart) : Except BodyError Str :=
  scanParts render parts []

/-!
## Decoding pipeline (`readAndDecodePart`, extract_body.go lines 104-146)

The transfer-encoding decoders (`quotedprintable`, `base64`, both of which can
fail while reading) and the charset machinery (`charset.NewReaderLabel`,
which can fail at label lookup, and the conversion read, which can fail) are
external; they enter as the parameters `qp`, `b64` and `lookupConv`.  The
part body is taken as the byte sequence `r` the reader yields, and the
`charset` parameter of the parsed `Content-Type` as `charsetParam`. -/

/-- Steps 1-2: select the transfer decoder from the lower-cased, trimmed
`Content-Transfer-Encoding` header and read the decoded bytes. -/
def cteStage (qp b64 : Str → Except Unit Str) (cteHeader : Str) (r : Str) :
    Except Unit Str :=
  let cte := toLowerStr (trimSpace cteHeader)
  if cte = "quoted-printable".data then qp r
  else if cte = "base64".data then b64 r
  else .ok r

/-- `readAndDecodePart`: transfer decoding, then charset conversion to UTF-8
with silent fallback to the unconverted bytes on lookup or conversion
failure. -/
def readAndDecodePart (qp b64 : Str → Except Unit Str)
    (lookupConv : Str → Option (Str → Except Unit Str))
    (r : Str) (charsetParam : Str) (cteHeader : Str) : Except Unit Str :=
  match cteStage qp b64 cteHeader r with
  | .error e => .error e
  | .ok rawBytes =>
    let label := toLowerStr (trimSpace charsetParam)
    if label = [] || label = "utf-8".data || label = "us-ascii".data then
      .ok rawBytes
    else
      match lookupConv label with
      | none => .ok rawBytes
      | some conv =>
        match conv rawBytes with
        | .error _ => .ok rawBytes
        | .ok convBytes => .ok convBytes

/-!
## HTML-to-Markdown renderer (`htmlToPlain`, html_convert.go)

The parsed markup tree of `golang.org/x/net/html` is modelled by `HNode`:
text nodes, element nodes (tag, attributes, children) and container nodes
(document, comment, doctype — the walk only descends through them).  Entity
unescaping (`html.UnescapeString`) is the parameter `u`.  The `pre` flag of
the walk carries `parentIsPre` for the current node; the walk never descends
into a `pre` element (that branch uses `gatherTextF` instead), so the flag is
constant on every actual path and is `false` at the root.  A runtime abort of
the Go program (negative `strings.Repeat` count, out-of-range slice) is
modelled by `RenderAbort`. -/

inductive HNode where
  | text (data : Str)
  | elem (tag : Str) (attrs : List (Str × Str)) (children : List HNode)
  | cont (children : List HNode)

structure RState where
  buf : Str
  listStack : List Str
  olCounters : List Nat

inductive RenderAbort where
  | negativeRepeat
  | sliceOutOfRange

/-- Whitespace collapsing of a text node outside `pre` (html_convert.go
lines 35-47): any run of space, newline, tab or carriage return between two
non-space runs becomes one space; leading and trailing runs vanish. -/
def collapseAux : Bool → Str → Str
  | _, [] => []
  | sp, c :: rest =>
    if c == ' ' || c == '\n' || c == '\t' || c == '\r' then collapseAux true rest
    else if sp then ' ' :: c :: collapseAux false rest
    else c :: collapseAux false rest

def collapseWS (s : Str) : Str := collapseAux false s

/-- `ensureTwoNewlines` (html_convert.go lines 229-239). -/
def ensureTwoNewlines (buf : Str) : Str :=
  if endsWithStr buf "\n\n".data then buf
  else if endsWithStr buf "\n".data then buf ++ ['\n']
  else buf ++ "\n\n".data

/-- Value of the leading decimal digit run, used for the heading level
(`fmt.Sscanf(tag[1:], "%d", &level)` on `h1` … `h6`). -/
def decimalVal (s : Str) : Option Nat :=
  let ds := s.takeWhile Char.isDigit
  if ds = [] then none
  else some (ds.foldl (fun acc c => acc * 10 + (c.toNat - 48)) 0)

/-- Heading level: parsed from the tag's digits, default 1
(html_convert.go lines 74-77). -/
def headingLevel (tg : Str) : Nat :=
  if 1 < tg.length then (decimalVal (tg.drop 1)).getD 1 else 1

/-- First `href` attribute, trimmed (html_convert.go lines 105-111). -/
def findHref : List (Str × Str) → Str
  | [] => []
  | kv :: rest =>
    if toLowerStr kv.1 = "href".data then trimSpace kv.2 else findHref rest

/-- `alt`/`src` collection of the `img` branch (lines 192-201): the loop has
no break, so a later attribute of the same key overwrites an earlier one. -/
def imgAltSrc (attrs : List (Str × Str)) : Str × Str :=
  attrs.foldl
    (fun acc kv =>
      let k := toLowerStr kv.1
      if k = "alt".data then (kv.2, acc.2)
      else if k = "src".data then (acc.1, kv.2)
      else acc)
    ([], [])

mutual

/-- `collectText` (html_convert.go lines 242-253): unescaped text of all
descendant text nodes. -/
def collectTextN (u : Str → Str) : HNode → Str
  | .text d => u d
  | .elem _ _ cs => collectTextF u cs
  | .cont cs => collectTextF u cs

def collectTextF (u : Str → Str) : List HNode → Str
  | [] => []
  | n :: rest => collectTextN u n ++ collectTextF u rest

end

mutual

/-- `gatherInnerText` (html_convert.go lines 256-270): raw (not unescaped)
text of all descendant text nodes, used for `pre` blocks. -/
def gatherTextN : HNode → Str
  | .text d => d
  | .elem _ _ cs => gatherTextF cs
  | .cont cs => gatherTextF cs

def gatherTextF : List HNode → Str
  | [] => []
  | n :: rest => gatherTextN n ++ gatherTextF rest

end

/-- Discriminator of the tag switch of the walk (html_convert.go lines
51-212): one constructor per `case` arm of `switch tag`, with `otherK` for
the generic default. -/
inductive TagKind where
  | brK | blockK | headingK | strongK | emK | anchorK | ulK | olK | liK
  | preK | codeK | imgK | otherK

/-- The tag switch itself, in source order. -/
def tagKind (tg : Str) : TagKind :=
  if tg = "br".data then .brK
  else if tg = "p".data ∨ tg = "div".data then .blockK
  else if tg = "h1".data ∨ tg = "h2".data ∨ tg = "h3".data ∨
      tg = "h4".data ∨ tg = "h5".data ∨ tg = "h6".data then .headingK
  else if tg = "strong".data ∨ tg = "b".data then .strongK
  else if tg = "em".data ∨ tg = "i".data then .emK
  else if tg = "a".data then .anchorK
  else if tg = "ul".data then .ulK
  else if tg = "ol".data then .olK
  else if tg = "li".data then .liK
  else if tg = "pre".data then .preK
  else if tg = "code".data then .codeK
  else if tg = "img".data then .imgK
  else .otherK

mutual

/-- The recursive walk of `htmlToPlain` (html_convert.go lines 26-219),
branch for branch; the `switch tag` dispatch is factored through `tagKind`.
State: output buffer, list-kind stack, ordered-list counter stack.  The `li`
branch reproduces the `strings.Repeat("  ", len(listStack)-1)` indent: with
an empty list stack the count is the negative value `-1` and Go panics,
modelled by `RenderAbort.negativeRepeat`.  The unguarded `listStack[:len-1]`
pops of the `ul`/`ol` branches are modelled by `RenderAbort.sliceOutOfRange`.
-/
def walk (u : Str → Str) (pre : Bool) : HNode → RState → Except RenderAbort RState
  | .text d, st =>
    let t := u d
    .ok { st with buf := st.buf ++ (if pre then t else collapseWS t) }
  | .elem tag attrs cs, st =>
    let tg := toLowerStr tag
    match tagKind tg with
    | .brK => .ok { st with buf := st.buf ++ ['\n'] }
    | .blockK =>
      match walkF u pre cs { st with buf := ensureTwoNewlines st.buf } with
      | .error e => .error e
      | .ok st2 => .ok { st2 with buf := ensureTwoNewlines st2.buf }
    | .headingK =>
      match walkF u pre cs
          { st with buf := ensureTwoNewlines st.buf ++
              List.replicate (headingLevel tg) '#' ++ [' '] } with
      | .error e => .error e
      | .ok st2 => .ok { st2 with buf := ensureTwoNewlines st2.buf }
    | .strongK =>
      match walkF u pre cs { st with buf := st.buf ++ " **".data } with
      | .error e => .error e
      | .ok st2 => .ok { st2 with buf := st2.buf ++ "**".data }
    | .emK =>
      match walkF u pre cs { st with buf := st.buf ++ " *".data } with
      | .error e => .error e
      | .ok st2 => .ok { st2 with buf := st2.buf ++ "*".data }
    | .anchorK =>
      let inner := collectTextF u cs
      let href := findHref attrs
      let plainText := trimSpace inner
      let out :=
        if href = [] ∨ href = plainText then plainText
        else plainText ++ " (".data ++ href ++ ")".data
      .ok { st with buf := st.buf ++ [' '] ++ out }
    | .ulK =>
      match walkF u pre cs { st with listStack := st.listStack ++ ["ul".data] } with
      | .error e => .error e
      | .ok st2 =>
        match st2.listStack with
        | [] => .error .sliceOutOfRange
        | _ :: _ =>
          .ok { st2 with listStack := st2.listStack.dropLast,
                         buf := ensureTwoNewlines st2.buf }
    | .olK =>
      match walkF u pre cs { st with listStack := st.listStack ++ ["ol".data],
                                     olCounters := st.olCounters ++ [1] } with
      | .error e => .error e
      | .ok st2 =>
        let ctrs := if st2.olCounters.isEmpty then st2.olCounters
                    else st2.olCounters.dropLast
        match st2.listStack with
        | [] => .error .sliceOutOfRange
        | _ :: _ =>
          .ok { st2 with olCounters := ctrs,
                         listStack := st2.listStack.dropLast,
                         buf := ensureTwoNewlines st2.buf }
    | .liK =>
      let pfxCtrs :=
        if st.listStack.getLast? = some "ol".data then
          match st.olCounters.getLast? with
          | some c => (natToStr c ++ ". ".data, st.olCounters.dropLast ++ [c + 1])
          | none => ("- ".data, st.olCounters)
        else ("- ".data, st.olCounters)
      match st.listStack.length with
      | 0 => .error .negativeRepeat
      | Nat.succ depth =>
        match walkF u pre cs
            { st with buf := st.buf ++ repeatStr "  ".data depth ++ pfxCtrs.1,
                      olCounters := pfxCtrs.2 } with
        | .error e => .error e
        | .ok st3 => .ok { st3 with buf := st3.buf ++ ['\n'] }
    | .preK =>
      let raw := gatherTextF cs
      let b1 := ensureTwoNewlines st.buf ++ "```\n".data ++ raw
      let b2 := if endsWithStr raw "\n".data then b1 else b1 ++ ['\n']
      .ok { st with buf := ensureTwoNewlines (b2 ++ "```\n".data) }
    | .codeK =>
      if pre then walkF u pre cs st
      else
        match walkF u pre cs { st with buf := st.buf ++ " `".data } with
        | .error e => .error e
        | .ok st2 => .ok { st2 with buf := st2.buf ++ "`".data }
    | .imgK =>
      let altSrc := imgAltSrc attrs
      if altSrc.1 = [] then .ok st
      else .ok { st with buf := st.buf ++ " ![".data ++ altSrc.1 ++
                   "](".data ++ altSrc.2 ++ ")".data }
    | .otherK => walkF u pre cs st
  | .cont cs, st => walkF u pre cs st

/-- Sequential walk over a sibling list (`for c := n.FirstChild; …`). -/
def walkF (u : Str → Str) (pre : Bool) : List HNode → RState → Except RenderAbort RState
  | [], st => .ok st
  | n :: rest, st =>
    match walk u pre n st with
    | .error e => .error e
    | .ok st1 => walkF u pre rest st1

end

/-- `strings.Contains s "\n\n\n"`. -/
def containsNNN : Str → Bool
  | c :: d :: e :: rest =>
    (c == '\n' && d == '\n' && e == '\n') || containsNNN (d :: e :: rest)
  | _ => false

/-- `strings.ReplaceAll s "\n\n\n" "\n\n"` (left-to-right, non-overlapping). -/
def replaceNNN : Str → Str
  | c :: d :: e :: rest =>
    if c == '\n' && d == '\n' && e == '\n' then '\n' :: '\n' :: replaceNNN rest
    else c :: replaceNNN (d :: e :: rest)
  | l => l

/-- Iterated replacement with explicit fuel.  Each replacement round on a
string containing the pattern strictly shortens it, so `s.length` rounds
always reach the fixed point: the fuelled loop computes exactly the
`for strings.Contains … { s = strings.ReplaceAll … }` loop of
`normalizeBlankLines` (html_convert.go lines 283-289). -/
def normalizeIter : Nat → Str → Str
  | 0, s => s
  | fuel + 1, s => if containsNNN s then normalizeIter fuel (replaceNNN s) else s

def normalizeBlankLines (s : Str) : Str := normalizeIter s.length s

/-- `htmlToPlain` on a parsed tree: run the walk from the empty state, trim
the buffer, normalize blank lines (html_convert.go lines 15-226, with the
parse step of the external HTML library factored out into the input tree). -/
def htmlToPlain (u : Str → Str) (root : HNode) : Except RenderAbort Str :=
  match walk u false root { buf := [], listStack := [], olCounters := [] } with
  | .error e => .error e
  | .ok st => .ok (normalizeBlankLines (trimSpace st.buf))

/-- Verification invariant for the walk: the list-kind stack is restored, the
counter stack keeps its length and all entries below the top, and when the
innermost active list kind is not an ordered list the counter stack is left
entirely unchanged. -/
def stacksPreserved (st st2 : RState) : Prop :=
  st2.listStack = st.listStack ∧
  st2.olCounters.length = st.olCounters.length ∧
  st2.olCounters.dropLast = st.olCounters.dropLast ∧
  (st.listStack.getLast? ≠ some "ol".data → st2.olCounters = st.olCounters)

/-!
## Theorems

General lemmas about the embedded string functions, followed by one theorem
per claim (with witnesses and counterexamples where required).
-/

theorem mem_of_mem_dropWhile {p : Char → Bool} {l : Str} {c : Char}
    (h : c ∈ l.dropWhile p) : c ∈ l :=
  (List.dropWhile_sublist p (l := l)).mem h

theorem trimSpace_eq_nil_iff (l : Str) :
    trimSpace l = [] ↔ ∀ c ∈ l, isSpaceChar c = true := by
  unfold trimSpace
  rw [List.reverse_eq_nil_iff, List.dropWhile_eq_nil_iff]
  constructor
  · intro h c hc
    by_cases hd : c ∈ l.dropWhile isSpaceChar
    · exact h c (List.mem_reverse.2 hd)
    · have hsplit := List.takeWhile_append_dropWhile (p := isSpaceChar) (l := l)
      rw [← hsplit] at hc
      rcases List.mem_append.1 hc with h1 | h2
      · exact List.mem_takeWhile_imp h1
      · exact absurd h2 hd
  · intro h c hc
    exact h c (mem_of_mem_dropWhile (List.mem_reverse.1 hc))

theorem startsGt_trim_ne {l : Str} (h : startsGt l = true) : trimSpace l ≠ [] := by
  intro he
  rw [startsGt, startsWithStr, he] at h
  exact absurd h (by decide)

theorem quoteScan_ge3 {count : Nat} (h : 3 ≤ count) (ls : List Str) :
    quoteScan count ls = true := by
  cases ls <;> simp [quoteScan, h]

theorem quoteScan_three {a b c : Str} (rest : List Str)
    (ha : startsGt a = true) (hb : startsGt b = true) (hc : startsGt c = true) :
    quoteScan 0 (a :: b :: c :: rest) = true := by
  simp [quoteScan, ha, hb, hc, quoteScan_ge3]

theorem findSplit_le (ls : List Str) : ∀ k, k + 2 < ls.length →
    startsGt (ls.getD k []) = true → startsGt (ls.getD (k + 1) []) = true →
    startsGt (ls.getD (k + 2) []) = true →
    ∃ s, findSplit ls = some s ∧ s ≤ k := by
  induction ls with
  | nil => intro k h; simp at h
  | cons l rest ih =>
    intro k hlen h0 h1 h2
    cases k with
    | zero =>
      simp only [List.getD_cons_zero, List.getD_cons_succ] at h0 h1 h2
      match rest, hlen with
      | b :: c :: r, _ =>
        simp only [List.getD_cons_zero, List.getD_cons_succ] at h1 h2
        have hq := quoteScan_three r h0 h1 h2
        have hne := startsGt_trim_ne h0
        exact ⟨0, by simp [findSplit, hne, hq], Nat.le_refl 0⟩
    | succ k' =>
      simp only [List.getD_cons_succ] at h0 h1 h2
      have hlen' : k' + 2 < rest.length := by
        simp only [List.length_cons] at hlen; omega
      obtain ⟨s', hs', hle⟩ := ih k' hlen' h0 h1 h2
      by_cases hbl : trimSpace l = []
      · exact ⟨s' + 1, by simp [findSplit, hbl, hs'], by omega⟩
      · by_cases hq : quoteScan 0 (l :: rest) = true
        · exact ⟨0, by simp [findSplit, hbl, hq], by omega⟩
        · by_cases hp : patMatch (trimSpace l) = true
          · exact ⟨0, by simp [findSplit, hbl, hq, hp], by omega⟩
          · exact ⟨s' + 1, by simp [findSplit, hbl, hq, hp, hs'], by omega⟩

theorem splitNl_ne_nil (l : Str) : splitNl l ≠ [] := by
  induction l with
  | nil => simp [splitNl]
  | cons c rest ih =>
    by_cases h : c = '\n'
    · simp [splitNl, h]
    · simp only [splitNl, if_neg h]
      match hr : splitNl rest with
      | [] => simp
      | m :: ms => simp

theorem not_nl_mem_splitNl {l : Str} {piece : Str} (h : piece ∈ splitNl l) :
    '\n' ∉ piece := by
  induction l generalizing piece with
  | nil =>
    simp [splitNl] at h
    simp [h]
  | cons c rest ih =>
    by_cases hc : c = '\n'
    · simp only [splitNl, if_pos hc, List.mem_cons] at h
      rcases h with h | h
      · simp [h]
      · exact ih h
    · simp only [splitNl, if_neg hc] at h
      match hr : splitNl rest with
      | [] => exact absurd hr (splitNl_ne_nil rest)
      | m :: ms =>
        rw [hr] at h
        rcases List.mem_cons.1 h with h | h
        · subst h
          intro hmem
          rcases List.mem_cons.1 hmem with h | h
          · exact hc h.symm
          · exact ih (by rw [hr]; exact List.mem_cons_self m ms) h
        · exact ih (by rw [hr]; exact List.mem_cons.2 (Or.inr h))

theorem mem_splitNl_chars {l : Str} {piece : Str} (h : piece ∈ splitNl l) :
    ∀ c ∈ piece, c ∈ l := by
  induction l generalizing piece with
  | nil =>
    simp [splitNl] at h
    simp [h]
  | cons a rest ih =>
    by_cases hc : a = '\n'
    · simp only [splitNl, if_pos hc, List.mem_cons] at h
      rcases h with h | h
      · simp [h]
      · intro c hcp
        exact List.mem_cons.2 (Or.inr (ih h c hcp))
    · simp only [splitNl, if_neg hc] at h
      match hr : splitNl rest with
      | [] => exact absurd hr (splitNl_ne_nil rest)
      | m :: ms =>
        rw [hr] at h
        rcases List.mem_cons.1 h with h | h
        · subst h
          intro c hcp
          rcases List.mem_cons.1 hcp with h | h
          · simp [h]
          · exact List.mem_cons.2
              (Or.inr (ih (by rw [hr]; exact List.mem_cons_self m ms) c h))
        · intro c hcp
          exact List.mem_cons.2
            (Or.inr (ih (by rw [hr]; exact List.mem_cons.2 (Or.inr h)) c hcp))

theorem splitNl_no_nl {l : Str} (h : '\n' ∉ l) : splitNl l = [l] := by
  induction l with
  | nil => rfl
  | cons c rest ih =>
    have hc : c ≠ '\n' := fun he => h (he ▸ List.mem_cons_self c rest)
    have hrest : '\n' ∉ rest := fun hm => h (List.mem_cons.2 (Or.inr hm))
    simp only [splitNl, if_neg hc, ih hrest]

theorem splitNl_append_cons_nl (x y : Str) (h : '\n' ∉ x) :
    splitNl (x ++ '\n' :: y) = x :: splitNl y := by
  induction x with
  | nil => simp [splitNl]
  | cons c rest ih =>
    have hc : c ≠ '\n' := fun he => h (he ▸ List.mem_cons_self c rest)
    have hrest : '\n' ∉ rest := fun hm => h (List.mem_cons.2 (Or.inr hm))
    simp only [List.cons_append, splitNl, if_neg hc, List.append_eq, ih hrest]

theorem splitNl_joinNl (ls : List Str) (hne : ls ≠ [])
    (hfree : ∀ l ∈ ls, '\n' ∉ l) : splitNl (joinNl ls) = ls := by
  induction ls with
  | nil => exact absurd rfl hne
  | cons l rest ih =>
    cases rest with
    | nil => exact splitNl_no_nl (hfree l (List.mem_cons_self l []))
    | cons l2 rest2 =>
      have h1 : '\n' ∉ l := hfree l (List.mem_cons_self l (l2 :: rest2))
      show splitNl (l ++ '\n' :: joinNl (l2 :: rest2)) = l :: l2 :: rest2
      rw [splitNl_append_cons_nl _ _ h1,
        ih (by simp) (fun m hm => hfree m (List.mem_cons.2 (Or.inr hm)))]

theorem splitNl_append_nl (x : Str) : splitNl (x ++ ['\n']) = splitNl x ++ [[]] := by
  induction x with
  | nil => simp [splitNl]
  | cons c rest ih =>
    by_cases hc : c = '\n'
    · simp [splitNl, hc, ih]
    · simp only [List.cons_append, splitNl, if_neg hc, List.append_eq, ih]
      match hr : splitNl rest with
      | [] => exact absurd hr (splitNl_ne_nil rest)
      | m :: ms => simp [hr]

theorem splitNl_append_replicate (x : Str) (k : Nat) :
    splitNl (x ++ List.replicate k '\n') = splitNl x ++ List.replicate k [] := by
  induction k with
  | zero => simp
  | succ n ih =>
    rw [List.replicate_succ' (n := n), ← List.append_assoc, splitNl_append_nl, ih,
      List.replicate_succ' (n := n), List.append_assoc]

theorem trimNlRight_decomp (x : Str) :
    ∃ k, x = trimNlRight x ++ List.replicate k '\n' := by
  refine ⟨(x.reverse.takeWhile (· == '\n')).length, ?_⟩
  have hx : x = (x.reverse.takeWhile (· == '\n') ++ x.reverse.dropWhile (· == '\n')).reverse := by
    rw [List.takeWhile_append_dropWhile, List.reverse_reverse]
  have htw : x.reverse.takeWhile (· == '\n') =
      List.replicate (x.reverse.takeWhile (· == '\n')).length '\n' := by
    apply List.eq_replicate_of_mem
    intro b hb
    have := List.mem_takeWhile_imp hb
    exact eq_of_beq this
  calc x = (x.reverse.takeWhile (· == '\n') ++ x.reverse.dropWhile (· == '\n')).reverse := hx
    _ = trimNlRight x ++ (x.reverse.takeWhile (· == '\n')).reverse := by
        rw [List.reverse_append]; rfl
    _ = trimNlRight x ++ List.replicate (x.reverse.takeWhile (· == '\n')).length '\n' := by
        rw [congrArg List.reverse htw, List.reverse_replicate]

theorem findSplit_none_of (ls : List Str)
    (hp : ∀ l ∈ ls, patMatch (trimSpace l) = false)
    (hq : ∀ k, k < ls.length → quoteScan 0 (ls.drop k) = false) :
    findSplit ls = none := by
  induction ls with
  | nil => rfl
  | cons l rest ih =>
    have hrest : findSplit rest = none := by
      refine ih (fun m hm => hp m (List.mem_cons.2 (Or.inr hm))) (fun k hk => ?_)
      have := hq (k + 1) (by simp only [List.length_cons]; omega)
      simpa using this
    have hq0 : quoteScan 0 (l :: rest) = false := by
      have := hq 0 (by simp)
      simpa using this
    by_cases hbl : trimSpace l = []
    · simp [findSplit, hbl, hrest]
    · simp [findSplit, hbl, hq0, hp l (List.mem_cons_self l rest), hrest]

theorem findSplit_all_blank (ls : List Str)
    (h : ∀ l ∈ ls, trimSpace l = []) : findSplit ls = none := by
  induction ls with
  | nil => rfl
  | cons l rest ih =>
    simp [findSplit, h l (List.mem_cons_self l rest),
      ih (fun m hm => h m (List.mem_cons.2 (Or.inr hm)))]

theorem findSplit_some_lt (ls : List Str) (s : Nat) (h : findSplit ls = some s) :
    s < ls.length := by
  induction ls generalizing s with
  | nil => exact absurd h (by simp [findSplit])
  | cons l rest ih =>
    simp only [findSplit] at h
    by_cases hbl : trimSpace l = []
    · rw [if_pos hbl] at h
      match ho : findSplit rest with
      | none => rw [ho] at h; exact absurd h (by simp)
      | some s' =>
        rw [ho] at h
        simp only [Option.map_some', Option.some.injEq] at h
        have := ih s' ho
        simp only [List.length_cons]
        omega
    · rw [if_neg hbl] at h
      by_cases hquote : quoteScan 0 (l :: rest) = true
      · rw [if_pos hquote] at h
        cases h
        simp
      · rw [if_neg hquote] at h
        by_cases hpm : patMatch (trimSpace l) = true
        · rw [if_pos hpm] at h
          cases h
          simp
        · rw [if_neg hpm] at h
          match ho : findSplit rest with
          | none => rw [ho] at h; exact absurd h (by simp)
          | some s' =>
            rw [ho] at h
            simp only [Option.map_some', Option.some.injEq] at h
            have := ih s' ho
            simp only [List.length_cons]
            omega

/-- C7: for every input text containing at least 3 consecutive lines each of
whose trimmed form starts with `>`, the quote folder's split search
(`hideQuotedPart`, lines 189-209) finds a split point whose line index is at
or before the index of the first line of the first such run. -/
theorem c7_split_at_or_before_quote_run (md : Str) (k : Nat)
    (hlen : k + 2 < (splitNl md).length)
    (h0 : startsGt ((splitNl md).getD k []) = true)
    (h1 : startsGt ((splitNl md).getD (k + 1) []) = true)
    (h2 : startsGt ((splitNl md).getD (k + 2) []) = true) :
    ∃ s, findSplit (splitNl md) = some s ∧ s ≤ k :=
  findSplit_le (splitNl md) k hlen h0 h1 h2

/-- Witness for C7 at the concrete text `">a\n>b\n>c"` with `k = 0`. -/
theorem c7_witness :
    0 + 2 < (splitNl ">a\n>b\n>c".data).length ∧
    startsGt ((splitNl ">a\n>b\n>c".data).getD 0 []) = true ∧
    ∃ s, findSplit (splitNl ">a\n>b\n>c".data) = some s ∧ s ≤ 0 :=
  ⟨by decide, by decide,
    c7_split_at_or_before_quote_run ">a\n>b\n>c".data 0 (by decide) (by decide)
      (by decide) (by decide)⟩

/-- C10: if no line of the input matches any split rule — no suffix of the
line list starts a quote block (`isQuoteBlock` fails at every index) and no
line matches any of the eight header/separator patterns — then
`hideQuotedPart` returns its input unchanged, for both values of
`discardQuotes`. -/
theorem c10_no_match_identity (md : Str) (removeQuotes : Bool)
    (hp : ∀ l ∈ splitNl md, patMatch (trimSpace l) = false)
    (hq : ∀ k, k < (splitNl md).length → quoteScan 0 ((splitNl md).drop k) = false) :
    hideQuotedPart md removeQuotes = md := by
  by_cases hbl : trimSpace md = []
  · simp [hideQuotedPart, hbl]
  · simp [hideQuotedPart, hbl, findSplit_none_of (splitNl md) hp hq]

/-- Witness for C10 at the concrete text `"hello world\nsecond"`. -/
theorem c10_witness :
    (∀ l ∈ splitNl "hello world\nsecond".data, patMatch (trimSpace l) = false) ∧
    hideQuotedPart "hello world\nsecond".data true = "hello world\nsecond".data :=
  ⟨by decide,
    c10_no_match_identity "hello world\nsecond".data true (by decide) (by decide)⟩

/-- C3 counterexample: as stated the claim is false.  First input
`">a\n>b\n>c"`: a split is found at line 0, the visible region is blank, and
`hideQuotedPart` with `discardQuotes = true` returns the disclosure block,
which still contains the `>`-prefixed quoted lines.  Second input
`">q1\na\n>q2\n>q3\n>q4"`: a split is found at line 2 with a non-blank
visible region, yet the discarded output keeps line 0, which is `>`-prefixed
(a single quoted line before the split does not itself trigger a split). -/
theorem c3_counterexample :
    (findSplit (splitNl ">a\n>b\n>c".data) ≠ none ∧
      (splitNl (hideQuotedPart ">a\n>b\n>c".data true)).any startsGt = true) ∧
    (findSplit (splitNl ">q1\na\n>q2\n>q3\n>q4".data) ≠ none ∧
      trimSpace (trimNlRight (joinNl ((splitNl ">q1\na\n>q2\n>q3\n>q4".data).take 2))) ≠ [] ∧
      (splitNl (hideQuotedPart ">q1\na\n>q2\n>q3\n>q4".data true)).any startsGt = true) := by
  constructor
  · exact ⟨by decide, by decide⟩
  · exact ⟨by decide, by decide, by decide⟩

/-- C3 (amended): when `hideQuotedPart` finds a split point, the visible
region (the lines before the split) is non-blank, and no line before the
split has a trimmed form starting with `>`, then the result with
`discardQuotes = true` contains no line whose trimmed form starts with `>`:
the output is exactly the pre-split lines (right-trimmed of newlines) plus a
trailing newline.  (The counterexample shows the two extra hypotheses are
necessary: a blank visible region yields the disclosure block with the quoted
lines intact, and `>`-prefixed lines before the split are kept.) -/
theorem c3_discard_quotes_clean (md : Str) (s : Nat)
    (h1 : findSplit (splitNl md) = some s)
    (h2 : trimSpace (trimNlRight (joinNl ((splitNl md).take s))) ≠ [])
    (h3 : ∀ l ∈ (splitNl md).take s, startsGt l = false) :
    ∀ l ∈ splitNl (hideQuotedPart md true), startsGt l = false := by
  have hmd : trimSpace md ≠ [] := by
    intro he
    have hall : ∀ piece ∈ splitNl md, trimSpace piece = [] := by
      intro piece hp
      rw [trimSpace_eq_nil_iff]
      intro c hc
      exact (trimSpace_eq_nil_iff md).1 he c (mem_splitNl_chars hp c hc)
    rw [findSplit_all_blank _ hall] at h1
    exact absurd h1 (by simp)
  have hres : hideQuotedPart md true =
      trimNlRight (joinNl ((splitNl md).take s)) ++ ['\n'] := by
    simp [hideQuotedPart, hmd, h1, h2]
  have hs0 : s ≠ 0 := by
    intro h
    subst h
    simp only [List.take_zero, joinNl] at h2
    exact h2 rfl
  have htk : (splitNl md).take s ≠ [] := by
    rw [Ne, List.take_eq_nil_iff]
    push_neg
    exact ⟨hs0, splitNl_ne_nil md⟩
  have hfree : ∀ l ∈ (splitNl md).take s, '\n' ∉ l :=
    fun l hl => not_nl_mem_splitNl (List.take_subset _ _ hl)
  have hsj : splitNl (joinNl ((splitNl md).take s)) = (splitNl md).take s :=
    splitNl_joinNl _ htk hfree
  obtain ⟨k, hk⟩ := trimNlRight_decomp (joinNl ((splitNl md).take s))
  have htk2 : (splitNl md).take s =
      splitNl (trimNlRight (joinNl ((splitNl md).take s))) ++ List.replicate k [] := by
    have haux := splitNl_append_replicate (trimNlRight (joinNl ((splitNl md).take s))) k
    rw [← hk, hsj] at haux
    exact haux
  intro l hl
  rw [hres, splitNl_append_nl] at hl
  rcases List.mem_append.1 hl with hv | he
  · exact h3 l (htk2 ▸ List.mem_append.2 (Or.inl hv))
  · have : l = [] := by simpa using he
    subst this
    decide

/-- Witness for the amended C3 at the concrete text `"hi\n>1\n>2\n>3"`. -/
theorem c3_witness :
    findSplit (splitNl "hi\n>1\n>2\n>3".data) = some 1 ∧
    trimSpace (trimNlRight (joinNl ((splitNl "hi\n>1\n>2\n>3".data).take 1))) ≠ [] ∧
    ∀ l ∈ splitNl (hideQuotedPart "hi\n>1\n>2\n>3".data true), startsGt l = false :=
  ⟨by decide, by decide,
    c3_discard_quotes_clean "hi\n>1\n>2\n>3".data 1 (by decide) (by decide) (by decide)⟩

theorem scanParts_reach (render : Str → Except Unit Str) (rest : List MPart) :
    ∀ pre : List MPart, (∀ q ∈ pre, isAttachment q = true ∨
      (q.mediaType = "text/html".data ∧ okDecode q = true)) →
    ∀ acc, ∃ acc2, scanParts render (pre ++ rest) acc = scanParts render rest acc2 := by
  intro pre
  induction pre with
  | nil => exact fun _ acc => ⟨acc, rfl⟩
  | cons q pre ih =>
    intro hpre acc
    have hih := ih (fun x hx => hpre x (List.mem_cons.2 (Or.inr hx)))
    by_cases hatt : isAttachment q = true
    · have heq : scanParts render (q :: (pre ++ rest)) acc =
          scanParts render (pre ++ rest) acc := by
        simp [scanParts, hatt]
      rw [List.cons_append, heq]
      exact hih acc
    · rcases hpre q (List.mem_cons_self q pre) with h | ⟨hmt, hdec⟩
      · exact absurd h hatt
      · obtain ⟨b, hb⟩ : ∃ b, q.decoded = .ok b := by
          unfold okDecode at hdec
          match hqd : q.decoded with
          | .ok b => exact ⟨b, rfl⟩
          | .error e => rw [hqd] at hdec; simp at hdec
        have heq : scanParts render (q :: (pre ++ rest)) acc =
            scanParts render (pre ++ rest) b := by
          simp only [scanParts]
          rw [if_neg (by simp [hatt]), hmt]
          rw [if_neg (by decide), if_pos rfl, hb]
        rw [List.cons_append, heq]
        exact hih b

/-- C6: the multipart scan of `extractBodyAsMarkdown` returns the decoded,
trimmed text of a non-attachment `text/plain` part as soon as it is reached
(every earlier part being an attachment or a successfully decoded
non-attachment `text/html` part), inspecting no later part: the suffix `suf`
is universally quantified and does not influence the result.  In particular,
with exactly one `text/plain` and one `text/html` non-attachment part, the
`text/plain` text wins regardless of declaration order (order `html, plain`
is this theorem with `pre = [html]`; order `plain, html` with
`pre = []`). -/
theorem c6_plain_text_wins (render : Str → Except Unit Str)
    (pre suf : List MPart) (p : MPart) (b : Str)
    (hpre : ∀ q ∈ pre, isAttachment q = true ∨
      (q.mediaType = "text/html".data ∧ okDecode q = true))
    (hp1 : isAttachment p = false)
    (hp2 : p.mediaType = "text/plain".data)
    (hp3 : p.decoded = .ok b) :
    extractBodyAsMarkdown render (pre ++ p :: suf) = .ok (trimSpace b) := by
  obtain ⟨acc2, h⟩ := scanParts_reach render (p :: suf) pre hpre []
  rw [extractBodyAsMarkdown, h]
  simp only [scanParts]
  rw [if_neg (by simp [hp1]), hp2, if_pos rfl, hp3]

/-- Witness for C6: a message with an attachment, a `text/html` part, a
`text/plain` part and a later (never inspected) broken part returns the
trimmed plain text. -/
theorem c6_witness :
    isAttachment (MPart.mk [] "text/plain".data (.ok " hello ".data)) = false ∧
    extractBodyAsMarkdown (fun s => .ok s)
      [MPart.mk "attachment; filename=x".data "text/plain".data (.ok "zzz".data),
       MPart.mk [] "text/html".data (.ok "<p>H</p>".data),
       MPart.mk [] "text/plain".data (.ok " hello ".data),
       MPart.mk [] "image/png".data (.error ())] = .ok "hello".data :=
  ⟨by decide,
    c6_plain_text_wins (fun s => .ok s)
      [MPart.mk "attachment; filename=x".data "text/plain".data (.ok "zzz".data),
       MPart.mk [] "text/html".data (.ok "<p>H</p>".data)]
      [MPart.mk [] "image/png".data (.error ())]
      (MPart.mk [] "text/plain".data (.ok " hello ".data)) " hello ".data
      (by decide) (by decide) (by decide) rfl⟩

/-- C1 counterexample: a multipart message whose parts are a non-attachment
`text/html` part (successfully decoded, so a candidate has been captured)
followed by a non-attachment `image/png` part.  The claim says the scan does
not fail and returns the rendered candidate; the code's `default` branch
fails with the no-text-part error regardless of the captured candidate. -/
theorem c1_counterexample :
    extractBodyAsMarkdown (fun s => .ok s)
      [MPart.mk [] "text/html".data (.ok "<b>hi</b>".data),
       MPart.mk [] "image/png".data (.ok "img-bytes".data)] =
      .error .noTextPart := rfl

/-- C1 (amended): in the multipart scan of `extractBodyAsMarkdown`,
encountering a non-attachment part whose media type is neither `text/plain`
nor `text/html` causes the no-text-part error unconditionally — also when a
`text/html` candidate has already been captured earlier in the scan. -/
theorem c1_default_part_always_aborts (render : Str → Except Unit Str)
    (pre suf : List MPart) (p : MPart)
    (hpre : ∀ q ∈ pre, isAttachment q = true ∨
      (q.mediaType = "text/html".data ∧ okDecode q = true))
    (hp1 : isAttachment p = false)
    (hp2 : p.mediaType ≠ "text/plain".data)
    (hp3 : p.mediaType ≠ "text/html".data) :
    extractBodyAsMarkdown render (pre ++ p :: suf) = .error .noTextPart := by
  obtain ⟨acc2, h⟩ := scanParts_reach render (p :: suf) pre hpre []
  rw [extractBodyAsMarkdown, h]
  simp only [scanParts]
  rw [if_neg (by simp [hp1]), if_neg hp2, if_neg hp3]

/-- Witness for the amended C1: a captured `text/html` candidate followed by
an `image/png` part still aborts. -/
theorem c1_witness :
    isAttachment (MPart.mk [] "image/png".data (.ok "img".data)) = false ∧
    extractBodyAsMarkdown (fun s => .ok s)
      [MPart.mk [] "text/html".data (.ok "<p>x</p>".data),
       MPart.mk [] "image/png".data (.ok "img".data)] = .error .noTextPart :=
  ⟨by decide,
    c1_default_part_always_aborts (fun s => .ok s)
      [MPart.mk [] "text/html".data (.ok "<p>x</p>".data)] []
      (MPart.mk [] "image/png".data (.ok "img".data))
      (by decide) (by decide) (by decide) (by decide)⟩

/-- C2, evaluation at the failing input: a multipart message with two
non-attachment `text/html` parts decoding to `AAA` and `BBB` and no
`text/plain` part.  The scan's `firstHTML = string(b)` assignment is
unconditional, so the candidate handed to the renderer (here the identity)
is the LAST `text/html` part `BBB`, not the first `AAA` — contradicting the
claim and the code's own comment `Collect first text/plain, else first
text/html`. -/
theorem c2_last_html_wins_eval :
    extractBodyAsMarkdown (fun s => .ok s)
      [MPart.mk [] "text/html".data (.ok "AAA".data),
       MPart.mk [] "text/html".data (.ok "BBB".data)] = .ok "BBB".data ∧
    "BBB".data ≠ "AAA".data :=
  ⟨rfl, by decide⟩

/-- C8: for every part whose `Content-Type` declares a charset whose
lower-cased, trimmed label is not empty, `utf-8` or `us-ascii`,
`readAndDecodePart` never fails because of charset handling: once the
transfer-decoding stage has produced the raw bytes, the result is always a
success, and if the charset label lookup fails or the conversion to UTF-8
fails, the result is exactly the un-converted transfer-decoded bytes. -/
theorem c8_charset_failure_fallback
    (qp b64 : Str → Except Unit Str)
    (lookupConv : Str → Option (Str → Except Unit Str))
    (r charsetParam cteHeader rawBytes : Str)
    (hcte : cteStage qp b64 cteHeader r = .ok rawBytes)
    (hl1 : toLowerStr (trimSpace charsetParam) ≠ [])
    (hl2 : toLowerStr (trimSpace charsetParam) ≠ "utf-8".data)
    (hl3 : toLowerStr (trimSpace charsetParam) ≠ "us-ascii".data) :
    (∃ out, readAndDecodePart qp b64 lookupConv r charsetParam cteHeader = .ok out) ∧
    (lookupConv (toLowerStr (trimSpace charsetParam)) = none →
      readAndDecodePart qp b64 lookupConv r charsetParam cteHeader = .ok rawBytes) ∧
    (∀ conv e, lookupConv (toLowerStr (trimSpace charsetParam)) = some conv →
      conv rawBytes = .error e →
      readAndDecodePart qp b64 lookupConv r charsetParam cteHeader = .ok rawBytes) := by
  have hcase : readAndDecodePart qp b64 lookupConv r charsetParam cteHeader =
      match lookupConv (toLowerStr (trimSpace charsetParam)) with
      | none => .ok rawBytes
      | some conv =>
        match conv rawBytes with
        | .error _ => .ok rawBytes
        | .ok convBytes => .ok convBytes := by
    simp only [readAndDecodePart, hcte]
    rw [if_neg]
    simp [hl1, hl2, hl3]
  refine ⟨?_, ?_, ?_⟩
  · rw [hcase]
    match hlc : lookupConv (toLowerStr (trimSpace charsetParam)) with
    | none => exact ⟨rawBytes, rfl⟩
    | some conv =>
      match hcv : conv rawBytes with
      | .error e => exact ⟨rawBytes, by simp [hcv]⟩
      | .ok cb => exact ⟨cb, by simp [hcv]⟩
  · intro hlc
    rw [hcase, hlc]
  · intro conv e hlc hcv
    rw [hcase, hlc]
    simp [hcv]

/-- Witness for C8 with charset label `ISO-8859-1` and a failing lookup. -/
theorem c8_witness :
    cteStage (fun s => .ok s) (fun s => .ok s) [] "abc".data = .ok "abc".data ∧
    toLowerStr (trimSpace "ISO-8859-1".data) ≠ [] ∧
    readAndDecodePart (fun s => .ok s) (fun s => .ok s) (fun _ => none)
      "abc".data "ISO-8859-1".data [] = .ok "abc".data :=
  ⟨rfl, by decide,
    (c8_charset_failure_fallback (fun s => .ok s) (fun s => .ok s) (fun _ => none)
      "abc".data "ISO-8859-1".data [] "abc".data rfl (by decide) (by decide)
      (by decide)).2.1 rfl⟩

theorem replaceNNN_length_le (s : Str) : (replaceNNN s).length ≤ s.length := by
  match s with
  | [] => exact Nat.le.refl
  | [c] => exact Nat.le.refl
  | [c, d] => exact Nat.le.refl
  | c :: d :: e :: rest =>
    simp only [replaceNNN]
    split
    · have := replaceNNN_length_le rest
      simp only [List.length_cons]
      omega
    · have := replaceNNN_length_le (d :: e :: rest)
      simp only [List.length_cons] at *
      omega

theorem replaceNNN_length_lt (s : Str) (h : containsNNN s = true) :
    (replaceNNN s).length < s.length := by
  match s with
  | [] => exact absurd h (by decide)
  | [c] => exact absurd h (by rw [show containsNNN [c] = false from rfl]; decide)
  | [c, d] => exact absurd h (by rw [show containsNNN [c, d] = false from rfl]; decide)
  | c :: d :: e :: rest =>
    rw [show containsNNN (c :: d :: e :: rest) =
      ((c == '\n' && d == '\n' && e == '\n') || containsNNN (d :: e :: rest)) from rfl] at h
    simp only [replaceNNN]
    split
    · have := replaceNNN_length_le rest
      simp only [List.length_cons]
      omega
    · rename_i hneg
      have hc : containsNNN (d :: e :: rest) = true := by
        rcases (Bool.or_eq_true _ _).mp h with h1 | h2
        · exact absurd h1 hneg
        · exact h2
      have := replaceNNN_length_lt (d :: e :: rest) hc
      simp only [List.length_cons] at *
      omega

theorem normalizeIter_no (fuel : Nat) : ∀ s : Str, s.length ≤ fuel →
    containsNNN (normalizeIter fuel s) = false := by
  induction fuel with
  | zero =>
    intro s h
    have hs : s = [] := List.eq_nil_of_length_eq_zero (Nat.le_zero.1 h)
    subst hs
    rfl
  | succ n ih =>
    intro s h
    simp only [normalizeIter]
    split
    · rename_i hc
      refine ih _ ?_
      have := replaceNNN_length_lt s hc
      omega
    · rename_i hc
      simpa using hc

theorem containsNNN_cons {c : Char} {t : Str} (h : containsNNN t = true) :
    containsNNN (c :: t) = true := by
  match t with
  | [] => exact absurd h (by decide)
  | [d] => exact absurd h (by rw [show containsNNN [d] = false from rfl]; decide)
  | d :: e :: rest =>
    show ((c == '\n' && d == '\n' && e == '\n') || containsNNN (d :: e :: rest)) = true
    rw [h]
    simp

theorem containsNNN_append_triple (l r : Str) :
    containsNNN (l ++ '\n' :: '\n' :: '\n' :: r) = true := by
  induction l with
  | nil =>
    show (('\n' == '\n' && '\n' == '\n' && '\n' == '\n') || _) = true
    simp
  | cons c rest ih => exact containsNNN_cons ih

/-- C4: `htmlToPlain` is not total.  The input tree here is the HTML5 parse
of the parseable document `<li>x</li>` (`html` element containing `head` and
`body`, the stray `li` kept as a direct child of `body`).  The `li` branch
computes `strings.Repeat("  ", len(listStack)-1)` with an empty list stack,
i.e. a repetition count of `-1`, which panics in Go instead of returning a
result — modelled by the `negativeRepeat` abort. -/
theorem c4_li_outside_list_aborts :
    htmlToPlain id (HNode.cont [HNode.elem "html".data []
      [HNode.elem "head".data [] [],
       HNode.elem "body".data [] [HNode.elem "li".data [] [HNode.text "x".data]]]]) =
    .error .negativeRepeat := rfl

/-- C5: for every entity unescaper and every parsed tree on which
`htmlToPlain` returns successfully, the returned Markdown contains no run of
three or more consecutive newline characters: the final
`normalizeBlankLines` pass leaves no occurrence of `"\n\n\n"`. -/
theorem c5_no_triple_newline (u : Str → Str) (root : HNode) (out : Str)
    (h : htmlToPlain u root = .ok out) :
    ∀ l r : Str, out ≠ l ++ '\n' :: '\n' :: '\n' :: r := by
  intro l r heq
  unfold htmlToPlain at h
  match hw : walk u false root { buf := [], listStack := [], olCounters := [] } with
  | .error e =>
    rw [hw] at h
    exact absurd h (by simp)
  | .ok st =>
    rw [hw] at h
    simp only [Except.ok.injEq] at h
    have hno := normalizeIter_no (trimSpace st.buf).length (trimSpace st.buf)
      (Nat.le_refl _)
    rw [show normalizeIter (trimSpace st.buf).length (trimSpace st.buf) =
      normalizeBlankLines (trimSpace st.buf) from rfl, h, heq,
      containsNNN_append_triple] at hno
    exact absurd hno (by decide)

/-- Witness for C5 at a one-text-node tree. -/
theorem c5_witness :
    htmlToPlain id (HNode.cont [HNode.text "hi".data]) = .ok "hi".data ∧
    ∀ l r : Str, "hi".data ≠ l ++ '\n' :: '\n' :: '\n' :: r :=
  ⟨rfl, c5_no_triple_newline id (HNode.cont [HNode.text "hi".data]) "hi".data rfl⟩


theorem stacksPreserved_trans {s1 s2 s3 : RState} (h12 : stacksPreserved s1 s2)
    (h23 : stacksPreserved s2 s3) : stacksPreserved s1 s3 := by
  obtain ⟨a1, a2, a3, a4⟩ := h12
  obtain ⟨b1, b2, b3, b4⟩ := h23
  refine ⟨b1.trans a1, b2.trans a2, b3.trans a3, fun h => ?_⟩
  have h2 : s2.listStack.getLast? ≠ some "ol".data := by rw [a1]; exact h
  rw [b4 h2, a4 h]

mutual

theorem walk_stacks (u : Str → Str) (pre : Bool) (n : HNode) (st st2 : RState)
    (h : walk u pre n st = .ok st2) : stacksPreserved st st2 := by
  cases n with
  | text d =>
    simp only [walk] at h
    cases h
    exact ⟨rfl, rfl, rfl, fun _ => rfl⟩
  | cont cs =>
    simp only [walk] at h
    exact walkF_stacks u pre cs st st2 h
  | elem tag attrs cs =>
    simp only [walk] at h
    split at h
    · -- br
      cases h
      exact ⟨rfl, rfl, rfl, fun _ => rfl⟩
    · -- p, div
      split at h
      · exact absurd h (by simp)
      · rename_i stc heq
        cases h
        have hiv := walkF_stacks u pre cs _ stc heq
        exact ⟨hiv.1, hiv.2.1, hiv.2.2.1, fun hcon => hiv.2.2.2 hcon⟩
    · -- h1 .. h6
      split at h
      · exact absurd h (by simp)
      · rename_i stc heq
        cases h
        have hiv := walkF_stacks u pre cs _ stc heq
        exact ⟨hiv.1, hiv.2.1, hiv.2.2.1, fun hcon => hiv.2.2.2 hcon⟩
    · -- strong, b
      split at h
      · exact absurd h (by simp)
      · rename_i stc heq
        cases h
        have hiv := walkF_stacks u pre cs _ stc heq
        exact ⟨hiv.1, hiv.2.1, hiv.2.2.1, fun hcon => hiv.2.2.2 hcon⟩
    · -- em, i
      split at h
      · exact absurd h (by simp)
      · rename_i stc heq
        cases h
        have hiv := walkF_stacks u pre cs _ stc heq
        exact ⟨hiv.1, hiv.2.1, hiv.2.2.1, fun hcon => hiv.2.2.2 hcon⟩
    · -- a
      cases h
      exact ⟨rfl, rfl, rfl, fun _ => rfl⟩
    · -- ul
      split at h
      · exact absurd h (by simp)
      · rename_i stc heq
        have hiv := walkF_stacks u pre cs _ stc heq
        have i1 : stc.listStack = st.listStack ++ ["ul".data] := hiv.1
        have i4 : stc.olCounters = st.olCounters := by
          refine hiv.2.2.2 ?_
          show (st.listStack ++ ["ul".data]).getLast? ≠ some "ol".data
          rw [List.getLast?_concat]
          decide
        split at h
        · exact absurd h (by simp)
        · cases h
          refine ⟨?_, ?_, ?_, ?_⟩
          · show stc.listStack.dropLast = st.listStack
            rw [i1, List.dropLast_concat]
          · show stc.olCounters.length = st.olCounters.length
            rw [i4]
          · show stc.olCounters.dropLast = st.olCounters.dropLast
            rw [i4]
          · intro _
            show stc.olCounters = st.olCounters
            exact i4
    · -- ol
      split at h
      · exact absurd h (by simp)
      · rename_i stc heq
        have hiv := walkF_stacks u pre cs _ stc heq
        have i1 : stc.listStack = st.listStack ++ ["ol".data] := hiv.1
        have i2 : stc.olCounters.length = st.olCounters.length + 1 := by
          have h2 := hiv.2.1
          simpa using h2
        have i3 : stc.olCounters.dropLast = st.olCounters := by
          have h3 := hiv.2.2.1
          simpa [List.dropLast_concat] using h3
        have hne : stc.olCounters.isEmpty = false := by
          cases hoc : stc.olCounters with
          | nil => rw [hoc] at i2; simp at i2
          | cons a as => rfl
        split at h
        · exact absurd h (by simp)
        · cases h
          refine ⟨?_, ?_, ?_, ?_⟩
          · show stc.listStack.dropLast = st.listStack
            rw [i1, List.dropLast_concat]
          · show (if stc.olCounters.isEmpty = true then stc.olCounters
                else stc.olCounters.dropLast).length = st.olCounters.length
            rw [hne]
            simp [i3]
          · show (if stc.olCounters.isEmpty = true then stc.olCounters
                else stc.olCounters.dropLast).dropLast = st.olCounters.dropLast
            rw [hne]
            simp [i3]
          · intro _
            show (if stc.olCounters.isEmpty = true then stc.olCounters
                else stc.olCounters.dropLast) = st.olCounters
            rw [hne]
            simp [i3]
    · -- li
      split at h
      · exact absurd h (by simp)
      · rename_i depth hdepth
        split at h
        · exact absurd h (by simp)
        · rename_i st3 heq
          cases h
          by_cases hol : st.listStack.getLast? = some "ol".data
          · match hc : st.olCounters.getLast? with
            | some c =>
              -- a counter is present: use and increment the innermost one
              simp only [hol, if_pos rfl, hc] at heq
              have hiv := walkF_stacks u pre cs _ st3 heq
              have i1 : st3.listStack = st.listStack := hiv.1
              have i2 : st3.olCounters.length =
                  (st.olCounters.dropLast ++ [c + 1]).length := hiv.2.1
              have i3 : st3.olCounters.dropLast = st.olCounters.dropLast := by
                have h3 := hiv.2.2.1
                simpa [List.dropLast_concat] using h3
              have hocne : st.olCounters ≠ [] := by
                intro he
                rw [he] at hc
                simp at hc
              have hlenpos : 0 < st.olCounters.length := List.length_pos.2 hocne
              refine ⟨i1, ?_, i3, fun hcon => absurd hol hcon⟩
              show st3.olCounters.length = st.olCounters.length
              rw [i2]
              simp only [List.length_append, List.length_dropLast,
                List.length_cons, List.length_nil]
              omega
            | none =>
              -- no counter on the stack: the counter stack is [] before and after
              simp only [hol, if_pos rfl, hc] at heq
              have hiv := walkF_stacks u pre cs _ st3 heq
              have hocnil : st.olCounters = [] := by
                cases hoc : st.olCounters with
                | nil => rfl
                | cons a as => rw [hoc] at hc; simp at hc
              have i2 : st3.olCounters.length = st.olCounters.length := hiv.2.1
              have h3nil : st3.olCounters = [] := by
                rw [hocnil] at i2
                exact List.eq_nil_of_length_eq_zero (by simpa using i2)
              refine ⟨hiv.1, ?_, ?_, fun _ => ?_⟩
              · show st3.olCounters.length = st.olCounters.length
                rw [h3nil, hocnil]
              · show st3.olCounters.dropLast = st.olCounters.dropLast
                rw [h3nil, hocnil]
              · show st3.olCounters = st.olCounters
                rw [h3nil, hocnil]
          · -- innermost kind is not an ordered list: plain dash item
            simp only [if_neg hol] at heq
            have hiv := walkF_stacks u pre cs _ st3 heq
            exact ⟨hiv.1, hiv.2.1, hiv.2.2.1, fun hcon => hiv.2.2.2 hcon⟩
    · -- pre block
      cases h
      exact ⟨rfl, rfl, rfl, fun _ => rfl⟩
    · -- code
      split at h
      · exact walkF_stacks u pre cs st st2 h
      · split at h
        · exact absurd h (by simp)
        · rename_i stc heq
          cases h
          have hiv := walkF_stacks u pre cs _ stc heq
          exact ⟨hiv.1, hiv.2.1, hiv.2.2.1, fun hcon => hiv.2.2.2 hcon⟩
    · -- img
      split at h
      · cases h
        exact ⟨rfl, rfl, rfl, fun _ => rfl⟩
      · cases h
        exact ⟨rfl, rfl, rfl, fun _ => rfl⟩
    · -- any other element: descend
      exact walkF_stacks u pre cs st st2 h

theorem walkF_stacks (u : Str → Str) (pre : Bool) (l : List HNode) (st st2 : RState)
    (h : walkF u pre l st = .ok st2) : stacksPreserved st st2 := by
  cases l with
  | nil =>
    simp only [walkF] at h
    cases h
    exact ⟨rfl, rfl, rfl, fun _ => rfl⟩
  | cons n rest =>
    simp only [walkF] at h
    split at h
    · exact absurd h (by simp)
    · rename_i st1 heq
      exact stacksPreserved_trans (walk_stacks u pre n st st1 heq)
        (walkF_stacks u pre rest st1 st2 h)

end

/-- C9: ordered-list counter discipline of the walk.  (1) An `ol` element
walks its children with a fresh innermost counter 1 pushed (and `"ol"` pushed
on the list-kind stack) and pops both afterwards, leaving the enclosing
stacks exactly as before the list — so numbering restarts at 1 for each
ordered list and ancestor counters are unchanged.  (2) A `li` element whose
innermost active list kind is `"ol"` with innermost counter `c` emits the
prefix `c. ` and increments only that innermost counter (`cs0`, the counters
of enclosing ordered lists, are untouched).  (3) Walking any node preserves
the list-kind stack and every counter below the innermost one. -/
theorem c9_ordered_list_counters (u : Str → Str) (pre : Bool)
    (attrs : List (Str × Str)) (cs : List HNode) (st : RState) :
    (∀ st1, walkF u pre cs
        { st with listStack := st.listStack ++ ["ol".data],
                  olCounters := st.olCounters ++ [1] } = .ok st1 →
      walk u pre (HNode.elem "ol".data attrs cs) st =
        .ok { buf := ensureTwoNewlines st1.buf, listStack := st.listStack,
              olCounters := st.olCounters }) ∧
    (∀ (cs0 : List Nat) (c : Nat) (st3 : RState),
      st.listStack.getLast? = some "ol".data →
      st.olCounters = cs0 ++ [c] →
      walkF u pre cs
        { st with buf := st.buf ++ repeatStr "  ".data (st.listStack.length - 1) ++
                    (natToStr c ++ ". ".data),
                  olCounters := cs0 ++ [c + 1] } = .ok st3 →
      walk u pre (HNode.elem "li".data attrs cs) st =
        .ok { st3 with buf := st3.buf ++ ['\n'] }) ∧
    (∀ (n : HNode) (st2 : RState), walk u pre n st = .ok st2 →
      stacksPreserved st st2) := by
  refine ⟨?_, ?_, ?_⟩
  · -- (1) ordered list: fresh counter, then pop, enclosing stacks restored
    intro st1 hw
    have hiv := walkF_stacks u pre cs _ st1 hw
    have i1 : st1.listStack = st.listStack ++ ["ol".data] := hiv.1
    have i2 : st1.olCounters.length = st.olCounters.length + 1 := by
      have h2 := hiv.2.1
      simpa using h2
    have i3 : st1.olCounters.dropLast = st.olCounters := by
      have h3 := hiv.2.2.1
      simpa [List.dropLast_concat] using h3
    have hne : st1.olCounters.isEmpty = false := by
      cases hoc : st1.olCounters with
      | nil => rw [hoc] at i2; simp at i2
      | cons a as => rfl
    obtain ⟨x, xs, hls⟩ : ∃ x xs, st1.listStack = x :: xs := by
      cases hoc : st1.listStack with
      | nil => rw [hoc] at i1; exact absurd i1.symm (by simp)
      | cons x xs => exact ⟨x, xs, rfl⟩
    simp only [walk]
    rw [show tagKind (toLowerStr "ol".data) = TagKind.olK from rfl]
    simp only [hw]
    rw [hls]
    simp only [hne, Bool.false_eq_true, if_false, ← hls]
    rw [i1, List.dropLast_concat, i3]
  · -- (2) list item inside an ordered list: use and increment the innermost
    intro cs0 c st3 hol hoc hw
    obtain ⟨n, hn⟩ : ∃ n, st.listStack.length = n + 1 := by
      cases hstk : st.listStack with
      | nil => rw [hstk] at hol; simp at hol
      | cons x xs => exact ⟨xs.length, by simp⟩
    rw [show st.listStack.length - 1 = n from by omega] at hw
    have hpair : (if st.listStack.getLast? = some "ol".data then
        match st.olCounters.getLast? with
        | some c2 => (natToStr c2 ++ ". ".data, st.olCounters.dropLast ++ [c2 + 1])
        | none => ("- ".data, st.olCounters)
      else ("- ".data, st.olCounters)) = (natToStr c ++ ". ".data, cs0 ++ [c + 1]) := by
      rw [if_pos hol, hoc, List.getLast?_concat]
      simp [List.dropLast_concat]
    simp only [walk]
    rw [show tagKind (toLowerStr "li".data) = TagKind.liK from rfl]
    simp only [hpair, hn]
    simp only [hw]
  · -- (3) general preservation of enclosing stacks and counters
    exact fun n st2 h => walk_stacks u pre n st st2 h

/-- Witness for C9: an empty ordered list from the empty state; a list item
with innermost counter 2 producing prefix `2. ` and counter 3; a text node
leaving an enclosing unordered-list state untouched. -/
theorem c9_witness :
    walk id false (HNode.elem "ol".data [] []) ⟨[], [], []⟩ =
      .ok ⟨"\n\n".data, [], []⟩ ∧
    walk id false (HNode.elem "li".data [] []) ⟨[], ["ol".data], [2]⟩ =
      .ok ⟨"2. \n".data, ["ol".data], [3]⟩ ∧
    stacksPreserved ⟨[], ["ul".data], [5]⟩ ⟨"x".data, ["ul".data], [5]⟩ :=
  ⟨(c9_ordered_list_counters id false [] [] ⟨[], [], []⟩).1
      ⟨[], ["ol".data], [1]⟩ rfl,
    (c9_ordered_list_counters id false [] [] ⟨[], ["ol".data], [2]⟩).2.1
      [] 2 ⟨"2. ".data, ["ol".data], [3]⟩ rfl rfl rfl,
    (c9_ordered_list_counters id false [] [] ⟨[], ["ul".data], [5]⟩).2.2
      (HNode.text "x".data) ⟨"x".data, ["ul".data], [5]⟩ rfl⟩
